import Mathlib

/- Shallow embedding of the Monte-Carlo signal-overlap simulator
   (Python modules simulator/prob.py, simulator/signals.py, simulator/util.py).
   Machine floats are modelled by exact rationals; numpy runtime errors by an
   explicit error monad; the uniform random draws consumed by the samplers are
   passed as explicit arguments. -/

/-- Error taxonomy of the Python runtime as observed by the embedded code:
`indexError` for out-of-range numpy indexing, `valueError` for `np.min` or
`np.max` of an empty array, `gridMisalignment` for the RuntimeError raised by
`composeSignals` when signal grids are not aligned. -/
inductive PyError where
  | indexError
  | valueError
  | gridMisalignment
deriving DecidableEq

/-- Boolean test that an `Except` computation succeeded. -/
def exceptOk {α : Type} : Except PyError α → Bool
  | .ok _ => true
  | .error _ => false

/-- Indexing a numpy array: an out-of-range access raises IndexError. -/
def listGet (l : List ℚ) (i : Nat) : Except PyError ℚ :=
  match l.get? i with
  | some x => .ok x
  | none => .error .indexError

/-- One iteration of the integration loop of `probNormalize` (prob.py line 19):
`PInt += (P[i] + P[i+1]) * (E[i+1] - E[i]) / 2`, with every array access
performed in source order. -/
def probIntStep (E P : List ℚ) (i : Nat) (acc : ℚ) : Except PyError ℚ :=
  match listGet P i with
  | .error e => .error e
  | .ok a =>
    match listGet P (i + 1) with
    | .error e => .error e
    | .ok b =>
      match listGet E i with
      | .error e => .error e
      | .ok c =>
        match listGet E (i + 1) with
        | .error e => .error e
        | .ok d => .ok (acc + (a + b) * (d - c) / 2)

/-- Sequential fold of a fallible loop body over a list of loop indices; the
first raised error aborts the loop. -/
def foldExcept (f : Nat → ℚ → Except PyError ℚ) : List Nat → ℚ → Except PyError ℚ
  | [], acc => .ok acc
  | i :: rest, acc =>
    match f i acc with
    | .ok acc2 => foldExcept f rest acc2
    | .error e => .error e

/-- `prob.probNormalize(E, P)`: integrate `P` trapezoidally over `E` with the
loop `for i in range(len(E) - 1)` and return the elementwise quotient
`P / PInt`.  (numpy division by a zero scalar does not raise, so the quotient
step itself never fails.) -/
def probNormalize (E P : List ℚ) : Except PyError (List ℚ) :=
  match foldExcept (probIntStep E P) (List.range (E.length - 1)) 0 with
  | .ok PInt => .ok (P.map (fun p => p / PInt))
  | .error e => .error e

/-- The trapezoidal integral `Σ (P[i]+P[i+1])·(E[i+1]-E[i])/2` over consecutive
points, as written in the specification. -/
def trapzInt (E P : List ℚ) : ℚ :=
  ((List.range (E.length - 1)).map
    (fun i => (P.getD i 0 + P.getD (i + 1) 0) * (E.getD (i + 1) 0 - E.getD i 0) / 2)).sum

lemma listGet_ok (l : List ℚ) (i : Nat) (h : i < l.length) :
    listGet l i = .ok (l.getD i 0) := by
  unfold listGet
  rw [List.get?_eq_getElem?, List.getElem?_eq_getElem h, List.getD_eq_getElem _ _ h]

lemma listGet_err (l : List ℚ) (i : Nat) (h : l.length ≤ i) :
    listGet l i = .error .indexError := by
  unfold listGet
  rw [List.get?_eq_getElem?, List.getElem?_eq_none h]

lemma probIntStep_eq (E P : List ℚ) (i : Nat) (acc : ℚ) :
    probIntStep E P i acc =
      if i + 1 < E.length ∧ i + 1 < P.length
      then .ok (acc + (P.getD i 0 + P.getD (i + 1) 0) * (E.getD (i + 1) 0 - E.getD i 0) / 2)
      else .error .indexError := by
  by_cases h : i + 1 < E.length ∧ i + 1 < P.length
  · rw [if_pos h]
    unfold probIntStep
    rw [listGet_ok P i (by omega), listGet_ok P (i + 1) h.2,
        listGet_ok E i (by omega), listGet_ok E (i + 1) h.1]
  · rw [if_neg h]
    unfold probIntStep
    rcases Nat.lt_or_ge i P.length with hPi | hPi
    · rw [listGet_ok P i hPi]
      rcases Nat.lt_or_ge (i + 1) P.length with hPi1 | hPi1
      · rw [listGet_ok P (i + 1) hPi1]
        rcases Nat.lt_or_ge i E.length with hEi | hEi
        · rw [listGet_ok E i hEi]
          have hEi1 : E.length ≤ i + 1 := by omega
          rw [listGet_err E (i + 1) hEi1]
        · rw [listGet_err E i hEi]
      · rw [listGet_err P (i + 1) hPi1]
    · rw [listGet_err P i hPi]

lemma foldExcept_ok (E P : List ℚ) :
    ∀ (l : List Nat) (acc : ℚ), (∀ i ∈ l, i + 1 < E.length ∧ i + 1 < P.length) →
      foldExcept (probIntStep E P) l acc =
        .ok (acc + (l.map
          (fun i => (P.getD i 0 + P.getD (i + 1) 0) * (E.getD (i + 1) 0 - E.getD i 0) / 2)).sum)
  | [], acc, _ => by simp [foldExcept]
  | i :: rest, acc, h => by
    have hi := h i (List.mem_cons_self i rest)
    have hstep : foldExcept (probIntStep E P) (i :: rest) acc
        = foldExcept (probIntStep E P) rest
            (acc + (P.getD i 0 + P.getD (i + 1) 0) * (E.getD (i + 1) 0 - E.getD i 0) / 2) := by
      rw [foldExcept, probIntStep_eq, if_pos hi]
    rw [hstep, foldExcept_ok E P rest _ (fun j hj => h j (List.mem_cons_of_mem i hj))]
    simp [add_assoc]

lemma foldExcept_err (E P : List ℚ) :
    ∀ (l : List Nat) (acc : ℚ), (¬ ∀ i ∈ l, i + 1 < E.length ∧ i + 1 < P.length) →
      foldExcept (probIntStep E P) l acc = .error .indexError
  | [], acc, h => absurd (by simp) h
  | i :: rest, acc, h => by
    rw [foldExcept, probIntStep_eq]
    by_cases hi : i + 1 < E.length ∧ i + 1 < P.length
    · rw [if_pos hi]
      exact foldExcept_err E P rest _ (fun hrest => h (fun j hj => by
        rcases List.mem_cons.mp hj with rfl | hj2
        · exact hi
        · exact hrest j hj2))
    · rw [if_neg hi]

lemma probNormalize_eq (E P : List ℚ) :
    probNormalize E P =
      if 2 ≤ E.length ∧ P.length < E.length
      then .error PyError.indexError
      else .ok (P.map (fun p => p / trapzInt E P)) := by
  by_cases h : 2 ≤ E.length ∧ P.length < E.length
  · rw [if_pos h]
    unfold probNormalize
    have hbad : ¬ ∀ i ∈ List.range (E.length - 1), i + 1 < E.length ∧ i + 1 < P.length := by
      intro hall
      have hmem : E.length - 2 ∈ List.range (E.length - 1) := by
        rw [List.mem_range]; omega
      have := hall (E.length - 2) hmem
      omega
    rw [foldExcept_err E P _ 0 hbad]
  · rw [if_neg h]
    unfold probNormalize
    have hgood : ∀ i ∈ List.range (E.length - 1), i + 1 < E.length ∧ i + 1 < P.length := by
      intro i hi
      rw [List.mem_range] at hi
      omega
    rw [foldExcept_ok E P _ 0 hgood, zero_add]
    rfl

/-- C1 (amended): `probNormalize` performs no domain validation.  It fails
(with IndexError, raised by the integration loop, never a DomainError) exactly
when `len(E) ≥ 2` and `len(P) < len(E)`; in every other case — including a
zero trapezoidal integral and sequences shorter than 2 points — it returns the
elementwise quotient `P / I` as a value. -/
theorem probNormalize_error_characterization (E P : List ℚ) :
    probNormalize E P =
      if 2 ≤ E.length ∧ P.length < E.length
      then .error PyError.indexError
      else .ok (P.map (fun p => p / trapzInt E P)) :=
  probNormalize_eq E P

/-- C1 counterexample: a two-point distribution whose trapezoidal integral is
zero; `probNormalize` returns a value instead of failing with any error. -/
theorem probNormalize_no_domain_error_cex :
    trapzInt [0, 1] [1, -1] = 0 ∧ exceptOk (probNormalize [0, 1] [1, -1]) = true := by
  constructor
  · norm_num [trapzInt, List.range_succ]
  · unfold probNormalize
    rw [foldExcept_ok [0, 1] [1, -1] _ 0 (by
      intro i hi
      simp only [List.mem_range, List.length_cons, List.length_nil] at hi ⊢
      omega)]
    rfl

lemma getD_map_div (P : List ℚ) (I : ℚ) (i : Nat) :
    (P.map (fun p => p / I)).getD i 0 = P.getD i 0 / I := by
  by_cases h : i < P.length
  · rw [List.getD_eq_getElem _ _ (by simpa using h), List.getElem_map,
        List.getD_eq_getElem _ _ h]
  · have h1 : (P.map (fun p => p / I)).length ≤ i := by simpa using Nat.le_of_not_lt h
    have h2 : P.length ≤ i := Nat.le_of_not_lt h
    simp [List.getD_eq_getElem?_getD, List.getElem?_eq_none h1, List.getElem?_eq_none h2]

lemma list_sum_div (I : ℚ) : ∀ (l : List ℚ), (l.map (fun x => x / I)).sum = l.sum / I
  | [] => by simp
  | x :: rest => by
    simp only [List.map_cons, List.sum_cons, list_sum_div I rest]
    rw [add_div]

/-- C2: for a valid distribution (strictly increasing `E`, equal lengths of at
least 2, nonzero trapezoidal integral) the output of `probNormalize`
trapezoidally integrates to exactly 1. -/
theorem probNormalize_integrates_to_one (E P : List ℚ)
    (hinc : E.Pairwise (fun a b => a < b)) (hlen : E.length = P.length)
    (h2 : 2 ≤ E.length) (hI : trapzInt E P ≠ 0) :
    probNormalize E P = .ok (P.map (fun p => p / trapzInt E P)) ∧
      trapzInt E (P.map (fun p => p / trapzInt E P)) = 1 := by
  constructor
  · rw [probNormalize_eq, if_neg (by omega)]
  · have hmap : (List.range (E.length - 1)).map
        (fun i => ((P.map (fun p => p / trapzInt E P)).getD i 0
          + (P.map (fun p => p / trapzInt E P)).getD (i + 1) 0)
          * (E.getD (i + 1) 0 - E.getD i 0) / 2)
        = ((List.range (E.length - 1)).map
          (fun i => (P.getD i 0 + P.getD (i + 1) 0) * (E.getD (i + 1) 0 - E.getD i 0) / 2)).map
          (fun x => x / trapzInt E P) := by
      rw [List.map_map]
      refine List.map_congr_left (fun i _ => ?_)
      simp only [Function.comp]
      rw [getD_map_div, getD_map_div]
      ring
    show ((List.range (E.length - 1)).map _).sum = 1
    rw [hmap, list_sum_div]
    exact div_self hI

/-- C2 witness at `E = [0, 1]`, `P = [1, 1]` (trapezoidal integral 1). -/
theorem probNormalize_integrates_to_one_witness :
    probNormalize [0, 1] [1, 1] = .ok [1, 1] ∧ trapzInt [0, 1] [1, 1] = 1 := by
  have hI : trapzInt [0, 1] [1, 1] = 1 := by norm_num [trapzInt, List.range_succ]
  have h := probNormalize_integrates_to_one [0, 1] [1, 1]
    (by norm_num [List.pairwise_cons]) (by simp) (by simp) (by rw [hI]; norm_num)
  have hmap : ([1, 1] : List ℚ).map (fun p => p / trapzInt [0, 1] [1, 1]) = [1, 1] := by
    simp [hI]
  exact ⟨by rw [h.1, hmap], hI⟩

/-- First index at which value `v` occurs in `xs`: models
`np.where(xs == v)[0][0]`, which the source only evaluates at values known to
occur in `xs`. -/
def firstIdx (xs : List ℚ) (v : ℚ) : Nat :=
  match xs with
  | [] => 0
  | x :: rest => if x = v then 0 else firstIdx rest v + 1

/-- `np.min` of an array; the empty case is unreachable in the source (numpy
raises ValueError there, which the embedding raises before evaluating this). -/
def npMin : List ℚ → ℚ
  | [] => 0
  | x :: rest => rest.foldl min x

/-- `np.max` of an array; same remark as for `npMin`. -/
def npMax : List ℚ → ℚ
  | [] => 0
  | x :: rest => rest.foldl max x

/-- One iteration of the loop in `signals.composeSignals` (lines 30-37), for
the current abscissa value `E2` of the second signal.  `index2` is computed in
the source before the branch; it is pure, so it is inlined at its use site.
`Y` is the ordinate array being accumulated (the copy of `signal1[1] * amp1`).
Branch order follows the source: membership test, then the range test, whose
`np.min`/`np.max` raise ValueError on an empty array. -/
def composeStep (s1X X2 Y2 : List ℚ) (off a2 : ℚ) (Y : List ℚ) (E2 : ℚ) :
    Except PyError (List ℚ) :=
  if E2 + off ∈ s1X then
    .ok (Y.set (firstIdx s1X (E2 + off))
      (Y.getD (firstIdx s1X (E2 + off)) 0 + Y2.getD (firstIdx X2 E2) 0 * a2))
  else if s1X = [] then .error .valueError
  else if npMin s1X ≤ E2 + off ∧ E2 + off ≤ npMax s1X then .error .gridMisalignment
  else .ok Y

/-- The `for E2 in signal2[0]` loop of `composeSignals`. -/
def composeLoop (s1X X2 Y2 : List ℚ) (off a2 : ℚ) (Y : List ℚ) :
    List ℚ → Except PyError (List ℚ)
  | [] => .ok Y
  | E2 :: rest =>
    match composeStep s1X X2 Y2 off a2 Y E2 with
    | .ok Y3 => composeLoop s1X X2 Y2 off a2 Y3 rest
    | .error e => .error e

/-- `signals.composeSignals(signal1, signal2, offset, amp1, amp2)`: start from
a copy of `signal1` with ordinates scaled by `amp1`, then fold the second
signal in. -/
def composeSignals (signal1 signal2 : List ℚ × List ℚ) (offset amp1 amp2 : ℚ) :
    Except PyError (List ℚ × List ℚ) :=
  match composeLoop signal1.1 signal2.1 signal2.2 offset amp2
      (signal1.2.map (fun y => y * amp1)) signal2.1 with
  | .ok Y => .ok (signal1.1, Y)
  | .error e => .error e

lemma firstIdx_lt (xs : List ℚ) (v : ℚ) (h : v ∈ xs) : firstIdx xs v < xs.length := by
  induction xs with
  | nil => cases h
  | cons x rest ih =>
    rw [firstIdx]
    by_cases hx : x = v
    · rw [if_pos hx]; simp
    · rw [if_neg hx]
      have hv : v ∈ rest := by
        rcases List.mem_cons.mp h with h1 | h1
        · exact absurd h1.symm hx
        · exact h1
      simpa using ih hv

lemma getD_firstIdx (xs : List ℚ) (v : ℚ) (h : v ∈ xs) : xs.getD (firstIdx xs v) 0 = v := by
  induction xs with
  | nil => cases h
  | cons x rest ih =>
    rw [firstIdx]
    by_cases hx : x = v
    · rw [if_pos hx]; simpa using hx
    · rw [if_neg hx]
      have hv : v ∈ rest := by
        rcases List.mem_cons.mp h with h1 | h1
        · exact absurd h1.symm hx
        · exact h1
      simpa using ih hv

lemma firstIdx_nodup (xs : List ℚ) (hnd : xs.Nodup) :
    ∀ j, j < xs.length → firstIdx xs (xs.getD j 0) = j := by
  induction xs with
  | nil => intro j hj; simp at hj
  | cons x rest ih =>
    intro j hj
    cases j with
    | zero => simp [firstIdx]
    | succ n =>
      have hn : n < rest.length := by simpa using hj
      have hmem : rest.getD n 0 ∈ rest := by
        rw [List.getD_eq_getElem _ _ hn]
        exact List.getElem_mem hn
      have hx : ¬ x = rest.getD n 0 := by
        intro hxe
        exact (List.nodup_cons.mp hnd).1 (hxe ▸ hmem)
      rw [List.getD_cons_succ, firstIdx, if_neg hx,
          ih (List.nodup_cons.mp hnd).2 n hn]

lemma foldl_min_le_init (l : List ℚ) : ∀ a : ℚ, l.foldl min a ≤ a := by
  induction l with
  | nil => intro a; exact le_rfl
  | cons y rest ih =>
    intro a
    rw [List.foldl_cons]
    exact le_trans (ih (min a y)) (min_le_left a y)

lemma foldl_min_le_mem (l : List ℚ) : ∀ (a x : ℚ), x ∈ l → l.foldl min a ≤ x := by
  induction l with
  | nil => intro a x h; cases h
  | cons y rest ih =>
    intro a x h
    rw [List.foldl_cons]
    rcases List.mem_cons.mp h with rfl | h2
    · exact le_trans (foldl_min_le_init rest (min a x)) (min_le_right a x)
    · exact ih (min a y) x h2

lemma foldl_min_mem (l : List ℚ) : ∀ a : ℚ, l.foldl min a ∈ a :: l := by
  induction l with
  | nil => intro a; simp
  | cons y rest ih =>
    intro a
    rw [List.foldl_cons]
    rcases List.mem_cons.mp (ih (min a y)) with h | h
    · rcases min_choice a y with h2 | h2
      · rw [h, h2]; exact List.mem_cons_self a (y :: rest)
      · rw [h, h2]; exact List.mem_cons_of_mem a (List.mem_cons_self y rest)
    · exact List.mem_cons_of_mem a (List.mem_cons_of_mem y h)

lemma foldl_max_init_le (l : List ℚ) : ∀ a : ℚ, a ≤ l.foldl max a := by
  induction l with
  | nil => intro a; exact le_rfl
  | cons y rest ih =>
    intro a
    rw [List.foldl_cons]
    exact le_trans (le_max_left a y) (ih (max a y))

lemma foldl_max_mem_le (l : List ℚ) : ∀ (a x : ℚ), x ∈ l → x ≤ l.foldl max a := by
  induction l with
  | nil => intro a x h; cases h
  | cons y rest ih =>
    intro a x h
    rw [List.foldl_cons]
    rcases List.mem_cons.mp h with rfl | h2
    · exact le_trans (le_max_right a x) (foldl_max_init_le rest (max a x))
    · exact ih (max a y) x h2

lemma foldl_max_mem (l : List ℚ) : ∀ a : ℚ, l.foldl max a ∈ a :: l := by
  induction l with
  | nil => intro a; simp
  | cons y rest ih =>
    intro a
    rw [List.foldl_cons]
    rcases List.mem_cons.mp (ih (max a y)) with h | h
    · rcases max_choice a y with h2 | h2
      · rw [h, h2]; exact List.mem_cons_self a (y :: rest)
      · rw [h, h2]; exact List.mem_cons_of_mem a (List.mem_cons_self y rest)
    · exact List.mem_cons_of_mem a (List.mem_cons_of_mem y h)

lemma npMin_le (l : List ℚ) (x : ℚ) (h : x ∈ l) : npMin l ≤ x := by
  cases l with
  | nil => cases h
  | cons y rest =>
    rw [npMin]
    rcases List.mem_cons.mp h with rfl | h2
    · exact foldl_min_le_init rest x
    · exact foldl_min_le_mem rest y x h2

lemma le_npMax (l : List ℚ) (x : ℚ) (h : x ∈ l) : x ≤ npMax l := by
  cases l with
  | nil => cases h
  | cons y rest =>
    rw [npMax]
    rcases List.mem_cons.mp h with rfl | h2
    · exact foldl_max_init_le rest x
    · exact foldl_max_mem_le rest y x h2

lemma npMin_mem (l : List ℚ) (h : l ≠ []) : npMin l ∈ l := by
  cases l with
  | nil => exact absurd rfl h
  | cons y rest => rw [npMin]; exact foldl_min_mem rest y

lemma npMax_mem (l : List ℚ) (h : l ≠ []) : npMax l ∈ l := by
  cases l with
  | nil => exact absurd rfl h
  | cons y rest => rw [npMax]; exact foldl_max_mem rest y

lemma composeStep_mem {s1X X2 Y2 : List ℚ} {off a2 : ℚ} {Y : List ℚ} {E2 : ℚ}
    (h : E2 + off ∈ s1X) :
    composeStep s1X X2 Y2 off a2 Y E2 =
      .ok (Y.set (firstIdx s1X (E2 + off))
        (Y.getD (firstIdx s1X (E2 + off)) 0 + Y2.getD (firstIdx X2 E2) 0 * a2)) := by
  rw [composeStep, if_pos h]

lemma composeStep_skip {s1X X2 Y2 : List ℚ} {off a2 : ℚ} {Y : List ℚ} {E2 : ℚ}
    (h1 : E2 + off ∉ s1X) (h2 : s1X ≠ [])
    (h3 : ¬(npMin s1X ≤ E2 + off ∧ E2 + off ≤ npMax s1X)) :
    composeStep s1X X2 Y2 off a2 Y E2 = .ok Y := by
  rw [composeStep, if_neg h1, if_neg h2, if_neg h3]

lemma composeStep_misaligned {s1X X2 Y2 : List ℚ} {off a2 : ℚ} {Y : List ℚ} {E2 : ℚ}
    (h1 : E2 + off ∉ s1X) (h2 : s1X ≠ [])
    (h3 : npMin s1X ≤ E2 + off ∧ E2 + off ≤ npMax s1X) :
    composeStep s1X X2 Y2 off a2 Y E2 = .error .gridMisalignment := by
  rw [composeStep, if_neg h1, if_neg h2, if_pos h3]

lemma composeLoop_cons_ok {s1X X2 Y2 : List ℚ} {off a2 : ℚ} {Y W : List ℚ} {E2 : ℚ}
    {rest : List ℚ} (h : composeStep s1X X2 Y2 off a2 Y E2 = .ok W) :
    composeLoop s1X X2 Y2 off a2 Y (E2 :: rest) = composeLoop s1X X2 Y2 off a2 W rest := by
  rw [composeLoop, h]

lemma composeLoop_cons_err {s1X X2 Y2 : List ℚ} {off a2 : ℚ} {Y : List ℚ} {E2 : ℚ}
    {rest : List ℚ} {e : PyError} (h : composeStep s1X X2 Y2 off a2 Y E2 = .error e) :
    composeLoop s1X X2 Y2 off a2 Y (E2 :: rest) = .error e := by
  rw [composeLoop, h]

/-- C10: whatever the inputs, a successful composition carries exactly the
abscissa array of the first signal; the embedding is pure, so the input signals are
never mutated. -/
theorem composeSignals_preserves_grid (s1 s2 : List ℚ × List ℚ) (off a1 a2 : ℚ)
    (sig : List ℚ × List ℚ) (h : composeSignals s1 s2 off a1 a2 = .ok sig) :
    sig.1 = s1.1 := by
  unfold composeSignals at h
  cases hl : composeLoop s1.1 s2.1 s2.2 off a2 (s1.2.map (fun y => y * a1)) s2.1 with
  | ok Y =>
    rw [hl] at h
    injection h with h2
    rw [← h2]
  | error e =>
    rw [hl] at h
    exact absurd h (by simp)

lemma composeLoop_all_skip (X1 X2 Y2 : List ℚ) (off a2 : ℚ) (hne : X1 ≠ []) :
    ∀ (L Y0 : List ℚ),
      (∀ x ∈ L, x + off < npMin X1 ∨ npMax X1 < x + off) →
      composeLoop X1 X2 Y2 off a2 Y0 L = .ok Y0 := by
  intro L
  induction L with
  | nil => intro Y0 _; rfl
  | cons E2 rest ih =>
    intro Y0 hout
    have hE2 := hout E2 (List.mem_cons_self E2 rest)
    have hnotmem : E2 + off ∉ X1 := by
      intro hm
      rcases hE2 with h | h
      · exact absurd (npMin_le X1 (E2 + off) hm) (not_le.mpr h)
      · exact absurd (le_npMax X1 (E2 + off) hm) (not_le.mpr h)
    have hnotrange : ¬(npMin X1 ≤ E2 + off ∧ E2 + off ≤ npMax X1) := by
      intro hr
      rcases hE2 with h | h
      · exact absurd hr.1 (not_le.mpr h)
      · exact absurd hr.2 (not_le.mpr h)
    rw [composeLoop_cons_ok (composeStep_skip hnotmem hne hnotrange)]
    exact ih Y0 (fun x hx => hout x (List.mem_cons_of_mem E2 hx))

/-- C6: when the offset puts every abscissa value of the second signal outside
the range of the first signal, composition returns the first signal scaled by
`amp1`, on its own grid, with no contribution from the second signal. -/
theorem composeSignals_outside_range (X1 Y1 X2 Y2 : List ℚ) (off a1 a2 : ℚ)
    (hne : X1 ≠ [])
    (hout : ∀ x ∈ X2, x + off < npMin X1 ∨ npMax X1 < x + off) :
    composeSignals (X1, Y1) (X2, Y2) off a1 a2 = .ok (X1, Y1.map (fun y => y * a1)) := by
  unfold composeSignals
  rw [composeLoop_all_skip X1 X2 Y2 off a2 hne X2 _ hout]

lemma composeLoop_ok_iff (X1 X2 Y2 : List ℚ) (off a2 : ℚ) (hne : X1 ≠ []) :
    ∀ (L Y0 : List ℚ),
      (∃ Z, composeLoop X1 X2 Y2 off a2 Y0 L = .ok Z)
        ↔ ∀ x ∈ L, x + off ∈ X1 ∨ ¬(npMin X1 ≤ x + off ∧ x + off ≤ npMax X1) := by
  intro L
  induction L with
  | nil =>
    intro Y0
    constructor
    · intro _ x hx; cases hx
    · intro _; exact ⟨Y0, rfl⟩
  | cons E2 rest ih =>
    intro Y0
    by_cases hmem : E2 + off ∈ X1
    · rw [composeLoop_cons_ok (composeStep_mem hmem)]
      constructor
      · intro hZ x hx
        rcases List.mem_cons.mp hx with rfl | hx2
        · exact Or.inl hmem
        · exact ((ih _).mp hZ) x hx2
      · intro hall
        exact (ih _).mpr (fun x hx => hall x (List.mem_cons_of_mem E2 hx))
    · by_cases hrange : npMin X1 ≤ E2 + off ∧ E2 + off ≤ npMax X1
      · rw [composeLoop_cons_err (composeStep_misaligned hmem hne hrange)]
        constructor
        · intro hZ
          obtain ⟨Z, hZ⟩ := hZ
          exact absurd hZ (by simp)
        · intro hall
          rcases hall E2 (List.mem_cons_self E2 rest) with h | h
          · exact absurd h hmem
          · exact absurd hrange h
      · rw [composeLoop_cons_ok (composeStep_skip hmem hne hrange)]
        constructor
        · intro hZ x hx
          rcases List.mem_cons.mp hx with rfl | hx2
          · exact Or.inr hrange
          · exact ((ih _).mp hZ) x hx2
        · intro hall
          exact (ih _).mpr (fun x hx => hall x (List.mem_cons_of_mem E2 hx))

lemma composeLoop_ok_or_misaligned (X1 X2 Y2 : List ℚ) (off a2 : ℚ) (hne : X1 ≠ []) :
    ∀ (L Y0 : List ℚ), (∃ Z, composeLoop X1 X2 Y2 off a2 Y0 L = .ok Z)
      ∨ composeLoop X1 X2 Y2 off a2 Y0 L = .error .gridMisalignment := by
  intro L
  induction L with
  | nil => intro Y0; exact Or.inl ⟨Y0, rfl⟩
  | cons E2 rest ih =>
    intro Y0
    by_cases hmem : E2 + off ∈ X1
    · rw [composeLoop_cons_ok (composeStep_mem hmem)]
      exact ih _
    · by_cases hrange : npMin X1 ≤ E2 + off ∧ E2 + off ≤ npMax X1
      · rw [composeLoop_cons_err (composeStep_misaligned hmem hne hrange)]
        exact Or.inr rfl
      · rw [composeLoop_cons_ok (composeStep_skip hmem hne hrange)]
        exact ih _

/-- C4: with a nonempty first grid, composition fails with the
grid-misalignment error exactly when some abscissa value of the second signal,
shifted by the offset, lands strictly inside the abscissa range of the first signal
without occurring in its abscissa sequence. -/
theorem composeSignals_misalignment_iff (X1 Y1 X2 Y2 : List ℚ) (off a1 a2 : ℚ)
    (hne : X1 ≠ []) (hinc1 : X1.Pairwise (fun a b => a < b))
    (hinc2 : X2.Pairwise (fun a b => a < b))
    (hl1 : Y1.length = X1.length) (hl2 : X2.length ≤ Y2.length) :
    composeSignals (X1, Y1) (X2, Y2) off a1 a2 = .error PyError.gridMisalignment
      ↔ ∃ x ∈ X2, x + off ∉ X1 ∧ npMin X1 < x + off ∧ x + off < npMax X1 := by
  have hloop := composeLoop_ok_iff X1 X2 Y2 off a2 hne X2 (Y1.map (fun y => y * a1))
  have hdich := composeLoop_ok_or_misaligned X1 X2 Y2 off a2 hne X2 (Y1.map (fun y => y * a1))
  unfold composeSignals
  constructor
  · intro h
    cases hR : composeLoop X1 X2 Y2 off a2 (Y1.map (fun y => y * a1)) X2 with
    | ok Z => rw [hR] at h; exact absurd h (by simp)
    | error e =>
      have hnotall : ¬ ∀ x ∈ X2, x + off ∈ X1 ∨ ¬(npMin X1 ≤ x + off ∧ x + off ≤ npMax X1) := by
        intro hall
        obtain ⟨Z, hZ⟩ := hloop.mpr hall
        rw [hR] at hZ
        exact absurd hZ (by simp)
      push_neg at hnotall
      obtain ⟨x, hx, hnotmem, hrange⟩ := hnotall
      refine ⟨x, hx, hnotmem, ?_, ?_⟩
      · rcases lt_or_eq_of_le hrange.1 with hlt | heq
        · exact hlt
        · exact absurd (heq ▸ npMin_mem X1 hne) hnotmem
      · rcases lt_or_eq_of_le hrange.2 with hlt | heq
        · exact hlt
        · exact absurd (heq.symm ▸ npMax_mem X1 hne) hnotmem
  · intro hbad
    obtain ⟨x, hx, hnotmem, h1, h2⟩ := hbad
    have hnotall : ¬ ∀ x ∈ X2, x + off ∈ X1 ∨ ¬(npMin X1 ≤ x + off ∧ x + off ≤ npMax X1) := by
      intro hall
      rcases hall x hx with h | h
      · exact absurd h hnotmem
      · exact absurd ⟨le_of_lt h1, le_of_lt h2⟩ h
    rcases hdich with hok | herr
    · exact absurd (hloop.mp hok) hnotall
    · rw [herr]

lemma getD_set_self (l : List ℚ) (i : Nat) (a : ℚ) (h : i < l.length) :
    (l.set i a).getD i 0 = a := by
  rw [List.getD_eq_getElem _ _ (by simpa using h)]
  simp

lemma getD_set_ne (l : List ℚ) (i j : Nat) (a : ℚ) (h : ¬ i = j) :
    (l.set i a).getD j 0 = l.getD j 0 := by
  by_cases hj : j < l.length
  · rw [List.getD_eq_getElem _ _ (by simpa using hj), List.getD_eq_getElem _ _ hj]
    exact List.getElem_set_ne h (by simpa using hj)
  · have h2 : l.length ≤ j := Nat.le_of_not_lt hj
    have h1 : (l.set i a).length ≤ j := by simpa using h2
    simp [List.getD_eq_getElem?_getD, List.getElem?_eq_none h1, List.getElem?_eq_none h2]

lemma getD_map_zero (f : ℚ → ℚ) (hf : f 0 = 0) (l : List ℚ) (i : Nat) :
    (l.map f).getD i 0 = f (l.getD i 0) := by
  by_cases h : i < l.length
  · rw [List.getD_eq_getElem _ _ (by simpa using h), List.getElem_map,
        List.getD_eq_getElem _ _ h]
  · have h1 : (l.map f).length ≤ i := by simpa using Nat.le_of_not_lt h
    have h2 : l.length ≤ i := Nat.le_of_not_lt h
    simp [List.getD_eq_getElem?_getD, List.getElem?_eq_none h1, List.getElem?_eq_none h2, hf]

lemma list_ext_getD (l1 l2 : List ℚ) (hlen : l1.length = l2.length)
    (h : ∀ j, j < l1.length → l1.getD j 0 = l2.getD j 0) : l1 = l2 := by
  apply List.ext_getElem hlen
  intro i h1 h2
  have h3 := h i h1
  rwa [List.getD_eq_getElem _ _ h1, List.getD_eq_getElem _ _ h2] at h3

lemma getD_mem (l : List ℚ) (j : Nat) (h : j < l.length) : l.getD j 0 ∈ l := by
  rw [List.getD_eq_getElem _ _ h]
  exact List.getElem_mem h

lemma composeLoop_self_aligned (X Y : List ℚ) (a2 : ℚ) (hnd : X.Nodup) :
    ∀ (L Y0 : List ℚ), L.Nodup → (∀ x ∈ L, x ∈ X) → Y0.length = X.length →
      ∃ Z, composeLoop X X Y 0 a2 Y0 L = .ok Z ∧ Z.length = X.length ∧
        ∀ j, j < X.length →
          Z.getD j 0 = Y0.getD j 0 + (if X.getD j 0 ∈ L then Y.getD j 0 * a2 else 0) := by
  intro L
  induction L with
  | nil =>
    intro Y0 _ _ hY0
    exact ⟨Y0, rfl, hY0, fun j _ => by simp⟩
  | cons E2 rest ih =>
    intro Y0 hndL hsub hY0
    have hE2X : E2 ∈ X := hsub E2 (List.mem_cons_self E2 rest)
    have hmem : E2 + 0 ∈ X := by rwa [add_zero]
    have hi0 : firstIdx X (E2 + 0) = firstIdx X E2 := by rw [add_zero]
    have hiX : firstIdx X E2 < X.length := firstIdx_lt X E2 hE2X
    have hXi : X.getD (firstIdx X E2) 0 = E2 := getD_firstIdx X E2 hE2X
    have hstep := @composeStep_mem X X Y 0 a2 Y0 E2 hmem
    rw [hi0] at hstep
    rw [composeLoop_cons_ok hstep]
    have hW : (Y0.set (firstIdx X E2)
        (Y0.getD (firstIdx X E2) 0 + Y.getD (firstIdx X E2) 0 * a2)).length = X.length := by
      rw [List.length_set]; exact hY0
    obtain ⟨Z, hZ, hZlen, hZval⟩ := ih _ (List.nodup_cons.mp hndL).2
      (fun x hx => hsub x (List.mem_cons_of_mem E2 hx)) hW
    refine ⟨Z, hZ, hZlen, fun j hj => ?_⟩
    rw [hZval j hj]
    by_cases hji : j = firstIdx X E2
    · rw [hji]
      have hnotrest : X.getD (firstIdx X E2) 0 ∉ rest := by
        rw [hXi]
        exact (List.nodup_cons.mp hndL).1
      have hconsmem : X.getD (firstIdx X E2) 0 ∈ E2 :: rest := by
        rw [hXi]
        exact List.mem_cons_self E2 rest
      rw [if_neg hnotrest, if_pos hconsmem,
          getD_set_self Y0 _ _ (by rwa [hY0]), add_zero]
    · have hXj : X.getD j 0 ≠ E2 := by
        intro he
        exact hji (by rw [← firstIdx_nodup X hnd j hj, he])
      rw [getD_set_ne Y0 _ j _ (fun he => hji he.symm)]
      have hcons : (X.getD j 0 ∈ E2 :: rest) ↔ (X.getD j 0 ∈ rest) := by
        rw [List.mem_cons]
        exact or_iff_right hXj
      by_cases hrest : X.getD j 0 ∈ rest
      · rw [if_pos hrest, if_pos (hcons.mpr hrest)]
      · rw [if_neg hrest, if_neg (fun hc => hrest (hcons.mp hc))]

/-- C5: composing a strictly-increasing-grid signal with itself at offset 0 and
unit amplitudes returns the same grid with every ordinate doubled. -/
theorem composeSignals_self_doubling (X Y : List ℚ)
    (hinc : X.Pairwise (fun a b => a < b)) (hlen : Y.length = X.length) :
    composeSignals (X, Y) (X, Y) 0 1 1 = .ok (X, Y.map (fun y => 2 * y)) := by
  have hnd : X.Nodup := hinc.imp (fun h => ne_of_lt h)
  have hY0len : (Y.map (fun y => y * 1)).length = X.length := by simpa using hlen
  obtain ⟨Z, hZ, hZlen, hZval⟩ :=
    composeLoop_self_aligned X Y 1 hnd X (Y.map (fun y => y * 1)) hnd (fun x hx => hx) hY0len
  unfold composeSignals
  rw [hZ]
  have hZY : Z = Y.map (fun y => 2 * y) := by
    apply list_ext_getD
    · rw [hZlen, List.length_map, hlen]
    · intro j hj
      rw [hZlen] at hj
      rw [hZval j hj, if_pos (getD_mem X j hj),
          getD_map_zero (fun y => y * 1) (by ring) Y j,
          getD_map_zero (fun y => 2 * y) (by ring) Y j]
      ring
  rw [hZY]

/-- `signals.integrateSignal(signal, intFrom, intTo)`: select the ordinates
whose abscissa satisfies `intFrom <= X <= intTo` (numpy boolean mask over the
zipped arrays) and sum them. -/
def integrateSignal (signal : List ℚ × List ℚ) (intFrom intTo : ℚ) : ℚ :=
  (((signal.1.zip signal.2).filter
    (fun xy => decide (intFrom ≤ xy.1 ∧ xy.1 ≤ intTo))).map Prod.snd).sum

/-- `signals.integrateSignalRelative(signal, offsetLeft, offsetRight, center)`:
integrate over `[center - offsetLeft, center + offsetRight]`.  The source gives
`center` the default value 9, and every internal caller uses that default. -/
def integrateSignalRelative (signal : List ℚ × List ℚ)
    (offsetLeft offsetRight center : ℚ) : ℚ :=
  integrateSignal signal (center - offsetLeft) (center + offsetRight)

lemma integrate_zip (a b : ℚ) : ∀ (X Y : List ℚ), X.length = Y.length →
    (((X.zip Y).filter (fun xy => decide (a ≤ xy.1 ∧ xy.1 ≤ b))).map Prod.snd).sum
      = ∑ i in Finset.range X.length,
          (if a ≤ X.getD i 0 ∧ X.getD i 0 ≤ b then Y.getD i 0 else 0)
  | [], [], _ => by simp
  | [], y :: Y, h => by simp at h
  | x :: X, [], h => by simp at h
  | x :: X, y :: Y, h => by
    have hlen : X.length = Y.length := by simpa using h
    have hrec := integrate_zip a b X Y hlen
    rw [List.zip_cons_cons, List.filter_cons]
    rw [show (x :: X).length = X.length + 1 from by simp, Finset.sum_range_succ']
    simp only [List.getD_cons_succ, List.getD_cons_zero]
    by_cases hx : a ≤ x ∧ x ≤ b
    · rw [if_pos (by simpa using hx), List.map_cons, List.sum_cons, hrec, if_pos hx]
      exact add_comm y _
    · rw [if_neg (by simpa using hx), hrec, if_neg hx, add_zero]

lemma map_snd_zip_eq : ∀ (X Y : List ℚ), X.length = Y.length →
    (X.zip Y).map Prod.snd = Y
  | [], [], _ => rfl
  | [], y :: Y, h => by simp at h
  | x :: X, [], h => by simp at h
  | x :: X, y :: Y, h => by
    rw [List.zip_cons_cons, List.map_cons, map_snd_zip_eq X Y (by simpa using h)]

/-- C7: `integrateSignal` sums exactly the ordinates whose abscissa lies in
the inclusive interval `[intFrom, intTo]`; over the full abscissa range it sums
every ordinate. -/
theorem integrateSignal_sum_in_range (X Y : List ℚ) (a b : ℚ)
    (hlen : X.length = Y.length) :
    integrateSignal (X, Y) a b
        = ∑ i in Finset.range X.length,
            (if a ≤ X.getD i 0 ∧ X.getD i 0 ≤ b then Y.getD i 0 else 0)
      ∧ (X ≠ [] → a ≤ npMin X → npMax X ≤ b → integrateSignal (X, Y) a b = Y.sum) := by
  constructor
  · exact integrate_zip a b X Y hlen
  · intro _ hmin hmax
    unfold integrateSignal
    have hall : ∀ xy ∈ X.zip Y, (decide (a ≤ xy.1 ∧ xy.1 ≤ b)) = true := by
      intro xy hxy
      obtain ⟨x, y⟩ := xy
      have hx1 : x ∈ X := (List.of_mem_zip hxy).1
      simp only [decide_eq_true_eq]
      exact ⟨le_trans hmin (npMin_le X x hx1), le_trans (le_npMax X x hx1) hmax⟩
    rw [List.filter_eq_self.mpr hall, map_snd_zip_eq X Y hlen]

/-- The cumulative integral array built by `prob.rollVal` (prob.py lines 30-34):
`PintArr[0] = 0` and `PintArr[i] = PintArr[i-1] + P[i] * (E[i] - E[i-1])` for
`i ≥ 1`; entry `i` of the array is `cumArrAux P E i`. -/
def cumArrAux (P E : List ℚ) : Nat → ℚ
  | 0 => 0
  | i + 1 => cumArrAux P E i + P.getD (i + 1) 0 * (E.getD (i + 1) 0 - E.getD i 0)

/-- `np.where(pred)[0]` over the index range of an array of length `n`: the
ascending list of indices satisfying the predicate. -/
def npWhere (p : Nat → Bool) (n : Nat) : List Nat := (List.range n).filter p

/-- `prob.rollVal(P, E)` with the uniform draw `u` passed explicitly: build the
cumulative array, take the last index with `PintArr <= u` and the first index
with `PintArr >= u`, and interpolate linearly between the corresponding
abscissa values.  When either `np.where` result is empty, the `[-1]`/`[0]`
indexing in the source raises IndexError, modelled by `none`. -/
def rollVal (P E : List ℚ) (u : ℚ) : Option ℚ :=
  match (npWhere (fun i => decide (cumArrAux P E i ≤ u)) P.length).getLast?,
        (npWhere (fun i => decide (u ≤ cumArrAux P E i)) P.length).head? with
  | some lowerIdx, some upperIdx =>
    some (E.getD lowerIdx 0
      + (u - cumArrAux P E lowerIdx)
        / (cumArrAux P E upperIdx - cumArrAux P E lowerIdx)
        * (E.getD upperIdx 0 - E.getD lowerIdx 0))
  | _, _ => none

lemma getLast_filter_range (p : Nat → Bool) :
    ∀ (n m : Nat), m < n → p m = true → (∀ k, k < n → m < k → p k = false) →
      ((List.range n).filter p).getLast? = some m := by
  intro n
  induction n with
  | zero => intro m hm _ _; omega
  | succ n ih =>
    intro m hm hpm hk
    rw [List.range_succ, List.filter_append]
    by_cases hpn : p n = true
    · have hmn : m = n := by
        by_contra hne
        have h1 : m < n := by omega
        have := hk n (by omega) h1
        rw [hpn] at this
        cases this
      subst hmn
      rw [show List.filter p [m] = [m] from by simp [List.filter_cons, hpm]]
      exact List.getLast?_concat _
    · have hpn2 : p n = false := by
        cases hp : p n
        · rfl
        · exact absurd hp hpn
      rw [show List.filter p [n] = [] from by simp [List.filter_cons, hpn2],
          List.append_nil]
      have hmn : m ≠ n := fun he => hpn (he ▸ hpm)
      exact ih m (by omega) hpm (fun k hk1 hk2 => hk k (by omega) hk2)

lemma head_filter_range (p : Nat → Bool) :
    ∀ (n m : Nat), m < n → p m = true → (∀ k, k < m → p k = false) →
      ((List.range n).filter p).head? = some m := by
  intro n
  induction n with
  | zero => intro m hm _ _; omega
  | succ n ih =>
    intro m hm hpm hk
    rw [List.range_succ, List.filter_append]
    by_cases hmn : m < n
    · have hh := ih m hmn hpm hk
      cases hl : (List.range n).filter p with
      | nil => rw [hl] at hh; cases hh
      | cons a t =>
        rw [hl] at hh
        rw [List.head?_cons] at hh
        rw [List.cons_append, List.head?_cons]
        exact hh
    · have hmn2 : m = n := by omega
      subst hmn2
      have hnil : (List.range m).filter p = [] := by
        rw [List.filter_eq_nil_iff]
        intro a ha
        rw [List.mem_range] at ha
        simp [hk a ha]
      rw [hnil, List.nil_append]
      simp [List.filter_cons, hpm]

/-- C3 (amended): whenever both bracketing indices exist — `lo` the largest
index with `C[lo] ≤ u` and `hi` the smallest with `C[hi] ≥ u` over the
cumulative array `C` (left-rectangle rule, `C[0] = 0`,
`C[i] = C[i-1] + P[i]·(E[i]-E[i-1])`) — `rollVal` returns the interpolation
`E[lo] + t·(E[hi]-E[lo])` with `t = (u - C[lo]) / (C[hi] - C[lo])`.  `hi` can
fail to exist even for a trapezoidally normalized distribution, because the
cumulative array uses a different quadrature rule than `probNormalize`; in
that case `rollVal` raises IndexError instead (see the counterexample). -/
theorem rollVal_inverse_cdf_formula (P E : List ℚ) (u : ℚ) (lo hi : Nat)
    (hlen : E.length = P.length) (hnorm : trapzInt E P = 1)
    (hu0 : 0 < u) (hu1 : u < 1)
    (hlo1 : lo < P.length) (hlo2 : cumArrAux P E lo ≤ u)
    (hlo3 : ∀ k, k < P.length → lo < k → u < cumArrAux P E k)
    (hhi1 : hi < P.length) (hhi2 : u ≤ cumArrAux P E hi)
    (hhi3 : ∀ k, k < hi → cumArrAux P E k < u) :
    rollVal P E u = some (E.getD lo 0
      + (u - cumArrAux P E lo) / (cumArrAux P E hi - cumArrAux P E lo)
        * (E.getD hi 0 - E.getD lo 0)) := by
  unfold rollVal npWhere
  rw [getLast_filter_range _ P.length lo hlo1 (by simpa using hlo2)
        (fun k hk1 hk2 => by
          rw [decide_eq_false_iff_not]
          exact not_le.mpr (hlo3 k hk1 hk2)),
      head_filter_range _ P.length hi hhi1 (by simpa using hhi2)
        (fun k hk => by
          rw [decide_eq_false_iff_not]
          exact not_le.mpr (hhi3 k hk))]

/-- C3 counterexample: `E = [0, 1]`, `P = [2, 0]` is trapezoidally normalized
(integral exactly 1) and `u = 1/2` lies in `(0, 1)`, yet the cumulative array
is `[0, 0]`, no index satisfies `C[hi] ≥ u`, and `rollVal` raises IndexError
instead of returning an interpolated value. -/
theorem rollVal_index_error_cex :
    trapzInt [0, 1] [2, 0] = 1 ∧ (0:ℚ) < 1/2 ∧ (1:ℚ)/2 < 1 ∧
      rollVal [2, 0] [0, 1] (1/2) = none := by
  refine ⟨by norm_num [trapzInt, List.range_succ], by norm_num, by norm_num, ?_⟩
  unfold rollVal npWhere
  rw [getLast_filter_range _ ([2, 0] : List ℚ).length 1 (by simp)
        (by norm_num [cumArrAux])
        (fun k hk1 hk2 => by
          simp only [List.length_cons, List.length_nil] at hk1
          omega),
      show ((List.range ([2, 0] : List ℚ).length).filter
          (fun i => decide ((1:ℚ)/2 ≤ cumArrAux [2, 0] [0, 1] i))) = [] from by
        rw [List.filter_eq_nil_iff]
        intro a ha
        simp only [List.length_cons, List.length_nil, List.mem_range] at ha
        interval_cases a <;> norm_num [cumArrAux]]
  rfl

/-- `signals.rollDoubleOverlap(P, E, signal, offsetLeft, offsetRight)` with the
three random draws passed explicitly: `v` is the `np.random.uniform(0, 43)`
draw, floored to the integer channel offset, and `u1`, `u2` are the uniform
draws consumed by the two `rollVal` amplitude calls (in source order).  The
record is returned as the flat array `[offset, amp1, amp2, integral]`. -/
def rollDoubleOverlap (P E : List ℚ) (signal : List ℚ × List ℚ)
    (offsetLeft offsetRight : ℚ) (v u1 u2 : ℚ) : Except PyError (List ℚ) :=
  match rollVal P E u1 with
  | none => .error .indexError
  | some amp1 =>
    match rollVal P E u2 with
    | none => .error .indexError
    | some amp2 =>
      match composeSignals signal signal ((⌊v⌋ : ℤ) : ℚ) amp1 amp2 with
      | .error e => .error e
      | .ok composed =>
        .ok [((⌊v⌋ : ℤ) : ℚ), amp1, amp2,
          integrateSignalRelative composed offsetLeft offsetRight 9]

/-- C8: the double-overlap roll returns the record
`[offset, amp1, amp2, integral]` in that order: `offset = ⌊v⌋` is an integer
in `[0, 42]` and, for each of the 43 positions `k`, the draw produces `k`
exactly when `v` lies in the unit-length interval `[k, k+1)` (equal
probability under the uniform draw); `amp1` and `amp2` are the two inverse-CDF
sample draws; and the integral is `integrateSignalRelative` of the
self-composition, i.e. `integrateSignal` over
`[9 - offsetLeft, 9 + offsetRight]` around the fixed center channel 9. -/
theorem rollDoubleOverlap_record (P E : List ℚ) (signal : List ℚ × List ℚ)
    (offsetLeft offsetRight v u1 u2 a1 a2 : ℚ) (c : List ℚ × List ℚ)
    (hv0 : 0 ≤ v) (hv1 : v < 43)
    (h1 : rollVal P E u1 = some a1) (h2 : rollVal P E u2 = some a2)
    (hc : composeSignals signal signal ((⌊v⌋ : ℤ) : ℚ) a1 a2 = .ok c) :
    rollDoubleOverlap P E signal offsetLeft offsetRight v u1 u2
        = .ok [((⌊v⌋ : ℤ) : ℚ), a1, a2,
            integrateSignal c (9 - offsetLeft) (9 + offsetRight)]
      ∧ 0 ≤ ⌊v⌋ ∧ ⌊v⌋ ≤ 42
      ∧ ∀ k : ℤ, 0 ≤ k → k ≤ 42 → (⌊v⌋ = k ↔ (k : ℚ) ≤ v ∧ v < (k : ℚ) + 1) := by
  refine ⟨?_, Int.floor_nonneg.mpr hv0, ?_, ?_⟩
  · unfold rollDoubleOverlap
    rw [h1, h2]
    show (match composeSignals signal signal ((⌊v⌋ : ℤ) : ℚ) a1 a2 with
      | .error e => (.error e : Except PyError (List ℚ))
      | .ok composed => .ok [((⌊v⌋ : ℤ) : ℚ), a1, a2,
          integrateSignalRelative composed offsetLeft offsetRight 9])
      = .ok [((⌊v⌋ : ℤ) : ℚ), a1, a2,
          integrateSignal c (9 - offsetLeft) (9 + offsetRight)]
    rw [hc]
    rfl
  · have hlt : ⌊v⌋ < 43 := Int.floor_lt.mpr (by exact_mod_cast hv1)
    omega
  · intro k _ _
    exact Int.floor_eq_iff

/-- `util.bulkRunnerHelper(bulkSize, what, *args)`: run the kernel `bulkSize`
times sequentially and collect the results in order.  The consumption of the
worker-local random stream by the kernel is modelled by explicit state threading. -/
def bulkRunnerHelper {α σ : Type} : Nat → (σ → α × σ) → σ → List α
  | 0, _, _ => []
  | n + 1, what, s => (what s).1 :: bulkRunnerHelper n what (what s).2

/-- `util.runInParallel(amount, poolSize, what, *args)`: `pool.map` evaluates
the same queued closure `amount` times; each worker reseeds its own random
source on entry (`np.random.seed()` in `parallelRunner`), so run `j` consumes
the worker-local random state `seeds j`. -/
def runInParallel {α σ : Type} (amount : Nat) (seeds : Nat → σ) (what : σ → α) : List α :=
  (List.range amount).map (fun j => what (seeds j))

/-- `util.runInParallelBulk(bulkNum, bulkSize, poolSize, what, *args)`:
dispatch `bulkNum` units through `runInParallel`, each unit running `bulkSize`
sequential kernel calls via `bulkRunnerHelper`, and flatten the per-unit result
lists into one sequence. -/
def runInParallelBulk {α σ : Type} (bulkNum bulkSize : Nat) (seeds : Nat → σ)
    (what : σ → α × σ) : List α :=
  (runInParallel bulkNum seeds (fun s => bulkRunnerHelper bulkSize what s)).flatten

lemma bulkRunnerHelper_length {α σ : Type} (what : σ → α × σ) :
    ∀ (n : Nat) (s : σ), (bulkRunnerHelper n what s).length = n
  | 0, _ => rfl
  | n + 1, s => by
    rw [bulkRunnerHelper, List.length_cons, bulkRunnerHelper_length what n _]

lemma sum_map_const_range (n c : Nat) : ((List.range n).map (fun _ => c)).sum = n * c := by
  induction n with
  | zero => simp
  | succ m ih =>
    rw [List.range_succ, List.map_append, List.sum_append, ih]
    simp [Nat.succ_mul]

/-- C9: the bulk executor returns the concatenation of `bulkNum` unit results,
each unit contributing exactly `bulkSize` sequential kernel evaluations, for a
total of exactly `bulkNum * bulkSize` results. -/
theorem runInParallelBulk_total {α σ : Type} (bulkNum bulkSize : Nat)
    (seeds : Nat → σ) (what : σ → α × σ) :
    runInParallelBulk bulkNum bulkSize seeds what
        = ((List.range bulkNum).map (fun j => bulkRunnerHelper bulkSize what (seeds j))).flatten
      ∧ (∀ j, (bulkRunnerHelper bulkSize what (seeds j)).length = bulkSize)
      ∧ (runInParallelBulk bulkNum bulkSize seeds what).length = bulkNum * bulkSize := by
  refine ⟨rfl, fun j => bulkRunnerHelper_length what bulkSize (seeds j), ?_⟩
  unfold runInParallelBulk runInParallel
  rw [List.length_flatten, List.map_map]
  have hfun : (List.length ∘ fun j => bulkRunnerHelper bulkSize what (seeds j))
      = fun _ : Nat => bulkSize := by
    funext j
    exact bulkRunnerHelper_length what bulkSize (seeds j)
  rw [hfun, sum_map_const_range]

/-- Concrete evaluation of `rollVal` on the normalized distribution
`E = [0, 1, 2]`, `P = [0, 2/3, 2/3]` at draw `u = 5/6` (cumulative array
`[0, 2/3, 4/3]`, enclosing indices 1 and 2, interpolation parameter 1/4). -/
lemma rollVal_at_example : rollVal [0, 2/3, 2/3] [0, 1, 2] (5/6) = some (5/4) := by
  unfold rollVal npWhere
  rw [getLast_filter_range _ ([0, 2/3, 2/3] : List ℚ).length 1 (by simp)
        (by rw [decide_eq_true_eq]; norm_num [cumArrAux])
        (fun k hk1 hk2 => by
          simp only [List.length_cons, List.length_nil] at hk1
          interval_cases k <;> (rw [decide_eq_false_iff_not]; norm_num [cumArrAux])),
      head_filter_range _ ([0, 2/3, 2/3] : List ℚ).length 2 (by simp)
        (by rw [decide_eq_true_eq]; norm_num [cumArrAux])
        (fun k hk => by
          interval_cases k <;> (rw [decide_eq_false_iff_not]; norm_num [cumArrAux]))]
  norm_num [cumArrAux]

/-- C3 witness at the same concrete normalized distribution and draw. -/
theorem rollVal_inverse_cdf_formula_witness :
    rollVal [0, 2/3, 2/3] [0, 1, 2] (5/6) = some (5/4) := by
  have h := rollVal_inverse_cdf_formula [0, 2/3, 2/3] [0, 1, 2] (5/6) 1 2
    (by simp) (by norm_num [trapzInt, List.range_succ]) (by norm_num) (by norm_num)
    (by simp) (by norm_num [cumArrAux])
    (fun k hk1 hk2 => by
      simp only [List.length_cons, List.length_nil] at hk1
      interval_cases k <;> norm_num [cumArrAux])
    (by simp) (by norm_num [cumArrAux])
    (fun k hk => by interval_cases k <;> norm_num [cumArrAux])
  rw [h]
  norm_num [cumArrAux]

/-- C4 witness: a half-integer offset on the integer grid `[0, 1]` raises the
grid-misalignment error. -/
theorem composeSignals_misalignment_iff_witness :
    composeSignals ([0, 1], [0, 0]) ([0, 1], [0, 0]) (1/2) 1 1
      = .error PyError.gridMisalignment := by
  refine (composeSignals_misalignment_iff [0, 1] [0, 0] [0, 1] [0, 0] (1/2) 1 1
    (by simp) (by norm_num [List.pairwise_cons]) (by norm_num [List.pairwise_cons])
    (by simp) (by simp)).mpr ⟨0, by simp, ?_, ?_, ?_⟩
  · norm_num
  · norm_num [npMin, min_def]
  · norm_num [npMax, max_def]

/-- C5 witness on the two-point signal `X = [0, 1]`, `Y = [3, 4]`. -/
theorem composeSignals_self_doubling_witness :
    composeSignals ([0, 1], [3, 4]) ([0, 1], [3, 4]) 0 1 1 = .ok ([0, 1], [6, 8]) := by
  have h := composeSignals_self_doubling [0, 1] [3, 4]
    (by norm_num [List.pairwise_cons]) (by simp)
  rw [h]
  norm_num

/-- C6 witness: offset 10 pushes `[0, 1]` entirely beyond the range of
`[0, 1]`, so only the ordinates scaled by `amp1 = 2` remain. -/
theorem composeSignals_outside_range_witness :
    composeSignals ([0, 1], [5, 6]) ([0, 1], [1, 1]) 10 2 3 = .ok ([0, 1], [10, 12]) := by
  have h := composeSignals_outside_range [0, 1] [5, 6] [0, 1] [1, 1] 10 2 3 (by simp)
    (by
      intro x hx
      right
      fin_cases hx <;> norm_num [npMax, max_def])
  rw [h]
  norm_num

/-- C7 witness: integrating over the full range of `X = [0, 1]` sums both
ordinates of `Y = [2, 3]`. -/
theorem integrateSignal_sum_in_range_witness :
    integrateSignal ([0, 1], [2, 3]) 0 1 = 5 := by
  have h := (integrateSignal_sum_in_range [0, 1] [2, 3] 0 1 (by simp)).2
    (by simp) (by norm_num [npMin, min_def]) (by norm_num [npMax, max_def])
  rw [h]
  norm_num

/-- C8 witness: draw `v = 41` (offset 41), both amplitude draws `5/6`
(amplitude 5/4), single-channel template `([0], [1])`; the shifted copy falls
outside the grid and the integration window `[9, 9]` misses channel 0, so the
record is `[41, 5/4, 5/4, 0]`. -/
theorem rollDoubleOverlap_record_witness :
    rollDoubleOverlap [0, 2/3, 2/3] [0, 1, 2] ([0], [1]) 0 0 41 (5/6) (5/6)
      = .ok [41, 5/4, 5/4, 0] := by
  have h41 : ((⌊(41:ℚ)⌋ : ℤ) : ℚ) = 41 := by norm_num
  have hc : composeSignals ([0], [1]) ([0], [1]) ((⌊(41:ℚ)⌋ : ℤ) : ℚ) (5/4) (5/4)
      = .ok (([0], [5/4]) : List ℚ × List ℚ) := by
    rw [h41]
    show (match composeLoop [0] [0] [1] 41 (5/4) ([1].map (fun y => y * (5/4))) [0] with
      | .ok Y => (.ok (([0] : List ℚ), Y) : Except PyError (List ℚ × List ℚ))
      | .error e => .error e) = .ok ([0], [5/4])
    rw [composeLoop_all_skip [0] [0] [1] 41 (5/4) (by simp) [0] _ (by
      intro x hx
      right
      fin_cases hx
      norm_num [npMax])]
    norm_num
  have h := (rollDoubleOverlap_record [0, 2/3, 2/3] [0, 1, 2] ([0], [1]) 0 0 41 (5/6) (5/6)
    (5/4) (5/4) ([0], [5/4]) (by norm_num) (by norm_num)
    rollVal_at_example rollVal_at_example hc).1
  rw [h, h41]
  norm_num [integrateSignal, List.filter_cons]

/-- C10 witness: composing `([0], [1])` with `([0], [2])` at offset 0 yields
`([0], [3])`, whose abscissa is that of the first signal. -/
theorem composeSignals_preserves_grid_witness :
    (([0], [3]) : List ℚ × List ℚ).1 = (([0], [1]) : List ℚ × List ℚ).1 := by
  refine composeSignals_preserves_grid ([0], [1]) ([0], [2]) 0 1 1 ([0], [3]) ?_
  show (match composeLoop [0] [0] [2] 0 1 ([1].map (fun y => y * 1)) [0] with
    | .ok Y => (.ok (([0] : List ℚ), Y) : Except PyError (List ℚ × List ℚ))
    | .error e => .error e) = .ok ([0], [3])
  rw [composeLoop_cons_ok (composeStep_mem (by norm_num)), composeLoop]
  norm_num [firstIdx]
